import Mathlib

/-!
Shallow embedding of `src/agresti_coull.py` (Agresti-Coull confidence
interval for a binomial proportion) and verification of the claims about it.

Modelling conventions:
* Python floats are modelled by real numbers `ℝ` (exact arithmetic).
* Python `None` (the undefined sentinel, also the `NaN` it becomes under
  `np.array(_, float)`) is `Option.none`; a defined numeric value `v` is
  `some v`.
* Python exceptions are modelled by `Except PyErr`: `math.sqrt` of a
  negative argument raises `ValueError`, `len()` of an object without a
  length (e.g. a generator) raises `TypeError`.
* The dynamic type of an argument of `agresti_coull` is captured by
  `NumInput`: a plain number, a Python list of numbers, a numpy `ndarray`
  of numbers, or a length-less iterable (generator).  All of the latter
  three are `collections.Iterable`; only the first two have `len`; only
  `ndarray` is `np.ndarray`.
-/

/-- Python exceptions relevant to this program. -/
inductive PyErr where
  | valueError : PyErr
  | typeError : PyErr
deriving DecidableEq

/-- Embedding of `math.sqrt`: raises `ValueError` on a negative argument,
otherwise returns the nonnegative square root. -/
noncomputable def mathSqrt (a : ℝ) : Except PyErr ℝ :=
  if a < 0 then Except.error PyErr.valueError else Except.ok (Real.sqrt a)

/-- Embedding of the point estimator `_ac(n, x, z)` from the source:
returns the undefined pair `(None, None)` when `n <= 0`, otherwise computes
`one_over_n = 1/(n + z*z)`, `p = one_over_n * (x + z*z/2)` and
`d = z * math.sqrt(one_over_n * p * (1 - p))`, propagating the
`ValueError` that `math.sqrt` raises on a negative argument. -/
noncomputable def _ac (n x z : ℝ) : Except PyErr (Option ℝ × Option ℝ) :=
  if n ≤ 0 then Except.ok (none, none)
  else
    let one_over_n : ℝ := 1 / (n + z * z)
    let p : ℝ := one_over_n * (x + z * z / 2)
    match mathSqrt (one_over_n * p * (1 - p)) with
    | Except.error e => Except.error e
    | Except.ok s => Except.ok (some p, some (z * s))

/-- The value the point estimator produces when it does not raise
(projection of `_ac`; `(none, none)` when `_ac` raises, but it is only
ever used at arguments where `_ac` succeeds). -/
noncomputable def acVal (n x z : ℝ) : Option ℝ × Option ℝ :=
  match _ac n x z with
  | Except.ok v => v
  | Except.error _ => (none, none)

/-- Dynamic type of an argument passed to `agresti_coull`: a scalar
number, a Python list, a numpy array, or a length-less iterable
(e.g. a generator), each carrying its numeric contents. -/
inductive NumInput where
  | scalar (v : ℝ)
  | pylist (vs : List ℝ)
  | ndarray (vs : List ℝ)
  | gen (vs : List ℝ)

/-- Embedding of `isinstance(-, collections.Iterable)`: everything except
a plain number is iterable. -/
def NumInput.isIterable : NumInput → Bool
  | .scalar _ => false
  | .pylist _ => true
  | .ndarray _ => true
  | .gen _ => true

/-- Embedding of `isinstance(-, np.ndarray)`. -/
def NumInput.isArray : NumInput → Bool
  | .ndarray _ => true
  | .scalar _ => false
  | .pylist _ => false
  | .gen _ => false

/-- Embedding of `len(-)`: lists and arrays have a length; a scalar or a
generator raises `TypeError` (modelled as `none`). -/
def NumInput.len? : NumInput → Option Nat
  | .pylist vs => some vs.length
  | .ndarray vs => some vs.length
  | .scalar _ => none
  | .gen _ => none

/-- The sequence of numbers an iterable yields when iterated. -/
def NumInput.elems : NumInput → List ℝ
  | .scalar v => [v]
  | .pylist vs => vs
  | .ndarray vs => vs
  | .gen vs => vs

/-- The numeric value of a scalar input (only ever used on `scalar`). -/
def NumInput.val : NumInput → ℝ
  | .scalar v => v
  | .pylist _ => 0
  | .ndarray _ => 0
  | .gen _ => 0

/-- Result of a call of `agresti_coull`: either a single `(center,
half_width)` pair (both arguments scalar) or a pair of sequences; the
Boolean records whether the sequences are numpy arrays (`True`) or plain
lists (`False`). -/
inductive AcRet where
  | scalarPair (p d : Option ℝ) : AcRet
  | seqPair (isArr : Bool) (pp dd : List (Option ℝ)) : AcRet

/-- Embedding of the scalar-broadcast preamble of `agresti_coull` (only
reached when at least one argument is iterable):
`if not isinstance(n, Iterable): n = [n] * len(x)` and
`elif not isinstance(x, Iterable): x = [x] * len(n)`; `len` of a
length-less iterable raises `TypeError`. -/
def normalizeArgs (n x : NumInput) : Except PyErr (NumInput × NumInput) :=
  if n.isIterable = false then
    match x.len? with
    | some m => Except.ok (NumInput.pylist (List.replicate m n.val), x)
    | none => Except.error PyErr.typeError
  else if x.isIterable = false then
    match n.len? with
    | some m => Except.ok (n, NumInput.pylist (List.replicate m x.val))
    | none => Except.error PyErr.typeError
  else Except.ok (n, x)

/-- Embedding of the loop `for nn, xx in zip(n, x): p, d = _ac(nn, xx, z);
pp.append(p); dd.append(d)`: runs the point estimator on each pair in
order, collecting the two result lists; an exception raised by `_ac`
aborts the whole loop. -/
noncomputable def runPairs (z : ℝ) : List (ℝ × ℝ) →
    Except PyErr (List (Option ℝ) × List (Option ℝ))
  | [] => Except.ok ([], [])
  | q :: rest =>
    match _ac q.1 q.2 z with
    | Except.error e => Except.error e
    | Except.ok (p, d) =>
      match runPairs z rest with
      | Except.error e => Except.error e
      | Except.ok (pp, dd) => Except.ok (p :: pp, d :: dd)

/-- Embedding of `agresti_coull(n, x, z)`: if either argument is iterable,
broadcast a lone scalar, run the point estimator over `zip(n, x)`, and
convert the outputs to numpy arrays exactly when both (possibly rebound)
arguments are numpy arrays; otherwise pass straight through to `_ac`. -/
noncomputable def agresti_coull (n x : NumInput) (z : ℝ) : Except PyErr AcRet :=
  if n.isIterable || x.isIterable then
    match normalizeArgs n x with
    | Except.error e => Except.error e
    | Except.ok (n2, x2) =>
      match runPairs z (n2.elems.zip x2.elems) with
      | Except.error e => Except.error e
      | Except.ok (pp, dd) =>
        Except.ok (AcRet.seqPair (n2.isArray && x2.isArray) pp dd)
  else
    match _ac n.val x.val z with
    | Except.error e => Except.error e
    | Except.ok (p, d) => Except.ok (AcRet.scalarPair p d)

/-! Helper lemmas about the point estimator. -/

lemma nz_pos (n z : ℝ) (hn : 0 < n) : 0 < n + z * z := by
  nlinarith [mul_self_nonneg z]

lemma ac_of_nonpos {n : ℝ} (x z : ℝ) (hn : n ≤ 0) :
    _ac n x z = Except.ok (none, none) := by
  simp [_ac, hn]

lemma ac_of_pos (n x z : ℝ) (hn : 0 < n) :
    _ac n x z =
      (if 1 / (n + z * z) * (1 / (n + z * z) * (x + z * z / 2)) *
          (1 - 1 / (n + z * z) * (x + z * z / 2)) < 0 then
        Except.error PyErr.valueError
      else
        Except.ok (some (1 / (n + z * z) * (x + z * z / 2)),
          some (z * Real.sqrt (1 / (n + z * z) * (1 / (n + z * z) * (x + z * z / 2)) *
            (1 - 1 / (n + z * z) * (x + z * z / 2)))))) := by
  simp only [_ac, mathSqrt, hn.not_le, if_false]
  by_cases h : 1 / (n + z * z) * (1 / (n + z * z) * (x + z * z / 2)) *
      (1 - 1 / (n + z * z) * (x + z * z / 2)) < 0
  · rw [if_pos h, if_pos h]
  · rw [if_neg h, if_neg h]

lemma ac_pos_ok {n x z : ℝ} (hn : 0 < n)
    (h : 0 ≤ (x + z * z / 2) / (n + z * z) * (1 - (x + z * z / 2) / (n + z * z))) :
    _ac n x z =
      Except.ok (some ((x + z * z / 2) / (n + z * z)),
        some (z * Real.sqrt ((x + z * z / 2) / (n + z * z) *
          (1 - (x + z * z / 2) / (n + z * z)) / (n + z * z)))) := by
  have ha : (0 : ℝ) < n + z * z := nz_pos n z hn
  rw [ac_of_pos n x z hn,
    show (1 : ℝ) / (n + z * z) * (x + z * z / 2) = (x + z * z / 2) / (n + z * z) by ring,
    show (1 : ℝ) / (n + z * z) * ((x + z * z / 2) / (n + z * z)) *
        (1 - (x + z * z / 2) / (n + z * z)) =
      (x + z * z / 2) / (n + z * z) * (1 - (x + z * z / 2) / (n + z * z)) / (n + z * z)
      by ring]
  rw [if_neg (not_lt.mpr (div_nonneg h ha.le))]

lemma ac_pos_err {n x z : ℝ} (hn : 0 < n)
    (h : (x + z * z / 2) / (n + z * z) * (1 - (x + z * z / 2) / (n + z * z)) < 0) :
    _ac n x z = Except.error PyErr.valueError := by
  have ha : (0 : ℝ) < n + z * z := nz_pos n z hn
  rw [ac_of_pos n x z hn,
    show (1 : ℝ) / (n + z * z) * (x + z * z / 2) = (x + z * z / 2) / (n + z * z) by ring,
    show (1 : ℝ) / (n + z * z) * ((x + z * z / 2) / (n + z * z)) *
        (1 - (x + z * z / 2) / (n + z * z)) =
      (x + z * z / 2) / (n + z * z) * (1 - (x + z * z / 2) / (n + z * z)) / (n + z * z)
      by ring]
  rw [if_pos (div_neg_of_neg_of_pos h ha)]

lemma ac_pos_shape {n x z : ℝ} {p d : Option ℝ} (hn : 0 < n)
    (h : _ac n x z = Except.ok (p, d)) : ∃ a b : ℝ, p = some a ∧ d = some b := by
  rw [ac_of_pos n x z hn] at h
  by_cases hc : 1 / (n + z * z) * (1 / (n + z * z) * (x + z * z / 2)) *
      (1 - 1 / (n + z * z) * (x + z * z / 2)) < 0
  · rw [if_pos hc] at h
    exact absurd h (by simp)
  · rw [if_neg hc] at h
    refine ⟨1 / (n + z * z) * (x + z * z / 2),
      z * Real.sqrt (1 / (n + z * z) * (1 / (n + z * z) * (x + z * z / 2)) *
        (1 - 1 / (n + z * z) * (x + z * z / 2))), ?_, ?_⟩ <;>
      · cases h
        rfl

/-! Helper lemmas about the element-wise loop. -/

lemma runPairs_ok_elim {z : ℝ} {l : List (ℝ × ℝ)} {pp dd : List (Option ℝ)}
    (h : runPairs z l = Except.ok (pp, dd)) :
    pp = l.map (fun q => (acVal q.1 q.2 z).1) ∧
      dd = l.map (fun q => (acVal q.1 q.2 z).2) ∧
      ∀ q ∈ l, _ac q.1 q.2 z = Except.ok (acVal q.1 q.2 z) := by
  induction l generalizing pp dd with
  | nil =>
    simp only [runPairs] at h
    cases h
    simp
  | cons q rest ih =>
    simp only [runPairs] at h
    rcases hq : _ac q.1 q.2 z with e | v
    · rw [hq] at h
      cases h
    · rw [hq] at h
      rcases v with ⟨p1, d1⟩
      rcases hrest : runPairs z rest with e | ⟨pp1, dd1⟩
      · rw [hrest] at h
        cases h
      · rw [hrest] at h
        cases h
        obtain ⟨h1, h2, h3⟩ := ih hrest
        have hval : acVal q.1 q.2 z = (p1, d1) := by
          simp [acVal, hq]
        refine ⟨?_, ?_, ?_⟩
        · simp [h1, hval]
        · simp [h2, hval]
        · intro r hr
          rcases List.mem_cons.mp hr with rfl | hr2
          · rw [hq, hval]
          · exact h3 r hr2

lemma runPairs_all_ok {z : ℝ} {l : List (ℝ × ℝ)}
    (h : ∀ q ∈ l, ∃ v, _ac q.1 q.2 z = Except.ok v) :
    runPairs z l =
      Except.ok (l.map (fun q => (acVal q.1 q.2 z).1),
        l.map (fun q => (acVal q.1 q.2 z).2)) := by
  induction l with
  | nil => simp [runPairs]
  | cons q rest ih =>
    obtain ⟨v, hv⟩ := h q (List.mem_cons_self q rest)
    have hval : acVal q.1 q.2 z = v := by
      simp [acVal, hv]
    simp only [runPairs, hv, ih (fun r hr => h r (List.mem_cons_of_mem q hr)), List.map_cons]
    rw [hval]

/-! Helper lemmas about the broadcasting adapter. -/

lemma zip_replicate_self {α β : Type} (l : List α) (a : β) :
    l.zip (List.replicate l.length a) = l.map (fun b => (b, a)) := by
  induction l with
  | nil => rfl
  | cons b t ih => simp [List.replicate_succ, ih]

lemma isArray_of_not_iterable {n : NumInput} (h : n.isIterable = false) :
    n.isArray = false := by
  cases n <;> simp_all [NumInput.isIterable, NumInput.isArray]

lemma normalizeArgs_isArray {n x n2 x2 : NumInput}
    (h : normalizeArgs n x = Except.ok (n2, x2)) :
    n2.isArray = n.isArray ∧ x2.isArray = x.isArray := by
  unfold normalizeArgs at h
  split at h
  next hn =>
    rcases hx : x.len? with _ | m
    · rw [hx] at h
      cases h
    · rw [hx] at h
      injection h with h1
      injection h1 with h2 h3
      subst h2
      subst h3
      rw [isArray_of_not_iterable hn]
      exact ⟨rfl, rfl⟩
  next hn =>
    split at h
    next hx =>
      rcases hl : n.len? with _ | m
      · rw [hl] at h
        cases h
      · rw [hl] at h
        injection h with h1
        injection h1 with h2 h3
        subst h2
        subst h3
        rw [isArray_of_not_iterable hx]
        exact ⟨rfl, rfl⟩
    next hx =>
      injection h with h1
      injection h1 with h2 h3
      subst h2
      subst h3
      exact ⟨rfl, rfl⟩

lemma agresti_seq_inv {n x : NumInput} {z : ℝ} {b : Bool} {pp dd : List (Option ℝ)}
    (h : agresti_coull n x z = Except.ok (AcRet.seqPair b pp dd)) :
    ∃ n2 x2, normalizeArgs n x = Except.ok (n2, x2) ∧
      runPairs z (n2.elems.zip x2.elems) = Except.ok (pp, dd) ∧
      b = (n2.isArray && x2.isArray) := by
  unfold agresti_coull at h
  split at h
  · split at h
    next e heq =>
      cases h
    next n2 x2 heq =>
      split at h
      next e heq2 =>
        cases h
      next pp1 dd1 heq2 =>
        injection h with h1
        cases h1
        exact ⟨n2, x2, heq, heq2, rfl⟩
  · split at h
    next e heq =>
      cases h
    next p d heq =>
      injection h with h1
      cases h1

/-! The claims. -/

/-- Claim C1, amended: for every `n > 0` and all real `x`, `z` such that
`center * (1 - center)` is nonnegative (`center = (x + z*z/2)/(n + z*z)`),
the point estimator returns exactly `center` and
`half_width = z * sqrt(center * (1 - center) / (n + z*z))`, matching the
algorithm steps `k = z*z`, `one_over_n = 1/(n+k)`,
`center = one_over_n*(x + k/2)`,
`half_width = z*sqrt(one_over_n*center*(1-center))`.  The original claim,
quantified over every real `x` and `z`, fails: when
`center * (1 - center) < 0` the estimator raises a domain error instead of
returning (see the counterexample). -/
theorem c1_estimator_formula (n x z : ℝ) (hn : 0 < n)
    (h : 0 ≤ (x + z * z / 2) / (n + z * z) * (1 - (x + z * z / 2) / (n + z * z))) :
    _ac n x z =
      Except.ok (some ((x + z * z / 2) / (n + z * z)),
        some (z * Real.sqrt ((x + z * z / 2) / (n + z * z) *
          (1 - (x + z * z / 2) / (n + z * z)) / (n + z * z)))) :=
  ac_pos_ok hn h

/-- Claim C1 counterexample: at `n = 1`, `x = -100`, `z = 2` (so `n > 0`,
`x` and `z` real) the point estimator does not return the claimed pair of
values: it raises `ValueError` and returns nothing at all. -/
theorem c1_counterexample :
    _ac 1 (-100) 2 = Except.error PyErr.valueError ∧
      ∀ v, _ac 1 (-100) 2 ≠ Except.ok v := by
  have h : _ac 1 (-100) 2 = Except.error PyErr.valueError := by
    apply ac_pos_err one_pos
    norm_num
  exact ⟨h, by simp [h]⟩

/-- Claim C1 witness: the amended theorem applied at `n = 1`, `x = 0`,
`z = 2`. -/
theorem c1_witness :
    (0 : ℝ) < 1 ∧
    (0 : ℝ) ≤ ((0 : ℝ) + 2 * 2 / 2) / (1 + 2 * 2) * (1 - ((0 : ℝ) + 2 * 2 / 2) / (1 + 2 * 2)) ∧
    _ac 1 0 2 =
      Except.ok (some (((0 : ℝ) + 2 * 2 / 2) / (1 + 2 * 2)),
        some (2 * Real.sqrt (((0 : ℝ) + 2 * 2 / 2) / (1 + 2 * 2) *
          (1 - ((0 : ℝ) + 2 * 2 / 2) / (1 + 2 * 2)) / (1 + 2 * 2)))) :=
  ⟨one_pos, by norm_num, c1_estimator_formula 1 0 2 one_pos (by norm_num)⟩

/-- Claim C2: for `n <= 0` the point estimator returns the undefined pair
`(none, none)` without raising; for `n > 0` a returned pair never contains
the undefined sentinel; the same holds element-wise for the sequence loop
of `agresti_coull` (element `i` of the outputs is the sentinel exactly for
`n[i] <= 0`); and a scalar call with `n <= 0` returns the undefined pair
from `agresti_coull` itself, locally recovered rather than raised. -/
theorem c2_undefined_sentinel :
    (∀ n x z : ℝ, n ≤ 0 → _ac n x z = Except.ok (none, none)) ∧
    (∀ (n x z : ℝ) (p d : Option ℝ), 0 < n → _ac n x z = Except.ok (p, d) →
      p ≠ none ∧ d ≠ none) ∧
    (∀ (z : ℝ) (l : List (ℝ × ℝ)) (pp dd : List (Option ℝ)) (i : ℕ) (nn xx : ℝ),
      runPairs z l = Except.ok (pp, dd) → l[i]? = some (nn, xx) →
        ((nn ≤ 0 → pp[i]? = some none ∧ dd[i]? = some none) ∧
         (0 < nn → ∃ a b : ℝ, pp[i]? = some (some a) ∧ dd[i]? = some (some b)))) ∧
    (∀ (a b z : ℝ), a ≤ 0 →
      agresti_coull (NumInput.scalar a) (NumInput.scalar b) z =
        Except.ok (AcRet.scalarPair none none)) := by
  refine ⟨?_, ?_, ?_, ?_⟩
  · intro n x z hn
    exact ac_of_nonpos x z hn
  · intro n x z p d hn h
    obtain ⟨a, b, ha, hb⟩ := ac_pos_shape hn h
    simp [ha, hb]
  · intro z l pp dd i nn xx h hl
    obtain ⟨hpp, hdd, hall⟩ := runPairs_ok_elim h
    have hmem : (nn, xx) ∈ l := List.getElem?_mem hl
    have hac := hall _ hmem
    have hppi : pp[i]? = some ((acVal nn xx z).1) := by
      rw [hpp, List.getElem?_map, hl]
      rfl
    have hddi : dd[i]? = some ((acVal nn xx z).2) := by
      rw [hdd, List.getElem?_map, hl]
      rfl
    constructor
    · intro hle
      have hv : acVal nn xx z = (none, none) := by
        simp [acVal, ac_of_nonpos xx z hle]
      rw [hppi, hddi, hv]
      exact ⟨rfl, rfl⟩
    · intro hpos
      rcases hv : acVal nn xx z with ⟨p, d⟩
      rw [hv] at hac
      obtain ⟨a, b, ha, hb⟩ := ac_pos_shape hpos hac
      refine ⟨a, b, ?_, ?_⟩
      · rw [hppi, hv, ha]
      · rw [hddi, hv, hb]
  · intro a b z h
    simp [agresti_coull, NumInput.isIterable, NumInput.val, ac_of_nonpos b z h]

/-- Claim C2 witness: the sentinel clause applied at `n = 0`, `x = 5`,
`z = 2`. -/
theorem c2_witness :
    (0 : ℝ) ≤ 0 ∧ _ac 0 5 2 = Except.ok (none, none) :=
  ⟨le_refl 0, c2_undefined_sentinel.1 0 5 2 (le_refl 0)⟩

/-- Claim C3: two sequence inputs are paired strictly by position up to
the length of the shorter one: provided every processed pair succeeds, the
call returns (raising nothing, regardless of any length mismatch) two
plain sequences listing the point-estimator results of `zip ns xs` in
input order, and both outputs have length `min (length ns) (length xs)`. -/
theorem c3_positional_truncation (ns xs : List ℝ) (z : ℝ)
    (h : ∀ q ∈ ns.zip xs, ∃ v, _ac q.1 q.2 z = Except.ok v) :
    agresti_coull (NumInput.pylist ns) (NumInput.pylist xs) z =
      Except.ok (AcRet.seqPair false
        ((ns.zip xs).map (fun q => (acVal q.1 q.2 z).1))
        ((ns.zip xs).map (fun q => (acVal q.1 q.2 z).2))) ∧
    ((ns.zip xs).map (fun q => (acVal q.1 q.2 z).1)).length = min ns.length xs.length ∧
    ((ns.zip xs).map (fun q => (acVal q.1 q.2 z).2)).length = min ns.length xs.length := by
  refine ⟨?_, by simp, by simp⟩
  simp [agresti_coull, normalizeArgs, NumInput.isIterable, NumInput.elems,
    NumInput.isArray, runPairs_all_ok h]

/-- Claim C3 witness: the theorem applied to the mismatched-length lists
`ns = [1, 2]` and `xs = [0]` with `z = 2`; one pair is processed. -/
theorem c3_witness :
    (∀ q ∈ (([1, 2] : List ℝ).zip ([0] : List ℝ)), ∃ v, _ac q.1 q.2 2 = Except.ok v) ∧
    agresti_coull (NumInput.pylist [1, 2]) (NumInput.pylist [0]) 2 =
      Except.ok (AcRet.seqPair false
        ((([1, 2] : List ℝ).zip ([0] : List ℝ)).map (fun q => (acVal q.1 q.2 2).1))
        ((([1, 2] : List ℝ).zip ([0] : List ℝ)).map (fun q => (acVal q.1 q.2 2).2))) ∧
    ((([1, 2] : List ℝ).zip ([0] : List ℝ)).map (fun q => (acVal q.1 q.2 2).1)).length =
      min ([1, 2] : List ℝ).length ([0] : List ℝ).length := by
  have h : ∀ q ∈ (([1, 2] : List ℝ).zip ([0] : List ℝ)), ∃ v, _ac q.1 q.2 2 = Except.ok v := by
    intro q hq
    simp only [List.zip_cons_cons, List.zip_nil_right, List.mem_singleton] at hq
    subst hq
    exact ⟨_, ac_pos_ok one_pos (by norm_num)⟩
  exact ⟨h, (c3_positional_truncation [1, 2] [0] 2 h).1,
    (c3_positional_truncation [1, 2] [0] 2 h).2.1⟩

/-- Claim C4: when exactly one of the two arguments is a sequence and the
other a single number, the scalar is broadcast by repeating it once per
element of the sequence, and the result is the element-wise application of
the point estimator to the sequence paired with the constant, in order
(both orientations). -/
theorem c4_scalar_broadcast :
    (∀ (ns : List ℝ) (x z : ℝ),
      (∀ nn ∈ ns, ∃ v, _ac nn x z = Except.ok v) →
      agresti_coull (NumInput.pylist ns) (NumInput.scalar x) z =
        Except.ok (AcRet.seqPair false
          (ns.map (fun nn => (acVal nn x z).1))
          (ns.map (fun nn => (acVal nn x z).2)))) ∧
    (∀ (xs : List ℝ) (n z : ℝ),
      (∀ xx ∈ xs, ∃ v, _ac n xx z = Except.ok v) →
      agresti_coull (NumInput.scalar n) (NumInput.pylist xs) z =
        Except.ok (AcRet.seqPair false
          (xs.map (fun xx => (acVal n xx z).1))
          (xs.map (fun xx => (acVal n xx z).2)))) := by
  constructor
  · intro ns x z h
    have hz : ns.zip (List.replicate ns.length x) = ns.map (fun nn => (nn, x)) :=
      zip_replicate_self ns x
    have h2 : ∀ q ∈ ns.map (fun nn => (nn, x)), ∃ v, _ac q.1 q.2 z = Except.ok v := by
      intro q hq
      obtain ⟨nn, hnn, rfl⟩ := List.mem_map.mp hq
      exact h nn hnn
    simp [agresti_coull, normalizeArgs, NumInput.isIterable, NumInput.len?,
      NumInput.val, NumInput.elems, NumInput.isArray, hz, runPairs_all_ok h2,
      List.map_map, Function.comp]
  · intro xs n z h
    have hz : (List.replicate xs.length n).zip xs = xs.map (fun xx => (n, xx)) := by
      clear h
      induction xs with
      | nil => rfl
      | cons b t ih => simp [List.replicate_succ, ih]
    have h2 : ∀ q ∈ xs.map (fun xx => (n, xx)), ∃ v, _ac q.1 q.2 z = Except.ok v := by
      intro q hq
      obtain ⟨xx, hxx, rfl⟩ := List.mem_map.mp hq
      exact h xx hxx
    simp [agresti_coull, normalizeArgs, NumInput.isIterable, NumInput.len?,
      NumInput.val, NumInput.elems, NumInput.isArray, hz, runPairs_all_ok h2,
      List.map_map, Function.comp]

/-- Claim C4 witness: `agresti_coull([1, 2, 3], 0, 2.0)` broadcasts
`x = 0` and returns the three point-estimator results for
`(1,0)`, `(2,0)`, `(3,0)` in that order. -/
theorem c4_witness :
    (∀ nn ∈ ([1, 2, 3] : List ℝ), ∃ v, _ac nn 0 2 = Except.ok v) ∧
    agresti_coull (NumInput.pylist [1, 2, 3]) (NumInput.scalar 0) 2 =
      Except.ok (AcRet.seqPair false
        (([1, 2, 3] : List ℝ).map (fun nn => (acVal nn 0 2).1))
        (([1, 2, 3] : List ℝ).map (fun nn => (acVal nn 0 2).2))) := by
  have h : ∀ nn ∈ ([1, 2, 3] : List ℝ), ∃ v, _ac nn 0 2 = Except.ok v := by
    intro nn hnn
    rcases List.mem_cons.mp hnn with rfl | hnn
    · exact ⟨_, ac_pos_ok one_pos (by norm_num)⟩
    rcases List.mem_cons.mp hnn with rfl | hnn
    · exact ⟨_, ac_pos_ok (by norm_num) (by norm_num)⟩
    rcases List.mem_cons.mp hnn with rfl | hnn
    · exact ⟨_, ac_pos_ok (by norm_num) (by norm_num)⟩
    · cases hnn
  exact ⟨h, c4_scalar_broadcast.1 [1, 2, 3] 0 2 h⟩

/-- Claim C5: a sequence result is returned as a numpy array pair exactly
when both inputs are numpy arrays (so not when only one is, nor when an
array is paired with a broadcast scalar); for two array inputs the two
outputs are arrays whose common length is the minimum of the input
lengths (hence the input shape for equal-shaped inputs). -/
theorem c5_array_type_preservation :
    (∀ (n x : NumInput) (z : ℝ) (b : Bool) (pp dd : List (Option ℝ)),
      agresti_coull n x z = Except.ok (AcRet.seqPair b pp dd) →
        (b = true ↔ n.isArray = true ∧ x.isArray = true)) ∧
    (∀ (ns xs : List ℝ) (z : ℝ) (b : Bool) (pp dd : List (Option ℝ)),
      agresti_coull (NumInput.ndarray ns) (NumInput.ndarray xs) z =
          Except.ok (AcRet.seqPair b pp dd) →
        b = true ∧ pp.length = min ns.length xs.length ∧
          dd.length = min ns.length xs.length) := by
  constructor
  · intro n x z b pp dd h
    obtain ⟨n2, x2, hn, hr, hb⟩ := agresti_seq_inv h
    obtain ⟨h1, h2⟩ := normalizeArgs_isArray hn
    subst hb
    rw [h1, h2]
    simp
  · intro ns xs z b pp dd h
    obtain ⟨n2, x2, hn, hr, hb⟩ := agresti_seq_inv h
    have hnx : n2 = NumInput.ndarray ns ∧ x2 = NumInput.ndarray xs := by
      simp only [normalizeArgs, NumInput.isIterable] at hn
      injection hn with h1
      injection h1 with h2 h3
      exact ⟨h2.symm, h3.symm⟩
    obtain ⟨rfl, rfl⟩ := hnx
    simp only [NumInput.elems] at hr
    obtain ⟨hpp, hdd, _⟩ := runPairs_ok_elim hr
    subst hpp
    subst hdd
    subst hb
    refine ⟨by simp [NumInput.isArray], by simp, by simp⟩

/-- Claim C5 witness: two one-element array inputs yield an array result
pair of the same length. -/
theorem c5_witness :
    agresti_coull (NumInput.ndarray [1]) (NumInput.ndarray [1]) 0 =
      Except.ok (AcRet.seqPair true [some 1] [some 0]) ∧
    (true = true ∧ ([some (1 : ℝ)] : List (Option ℝ)).length =
        min ([(1 : ℝ)] : List ℝ).length ([(1 : ℝ)] : List ℝ).length ∧
      ([some (0 : ℝ)] : List (Option ℝ)).length =
        min ([(1 : ℝ)] : List ℝ).length ([(1 : ℝ)] : List ℝ).length) := by
  have h : agresti_coull (NumInput.ndarray [1]) (NumInput.ndarray [1]) 0 =
      Except.ok (AcRet.seqPair true [some 1] [some 0]) := by
    have hac : _ac 1 1 0 = Except.ok (some 1, some 0) := by
      simp [_ac, mathSqrt]
    simp [agresti_coull, normalizeArgs, NumInput.isIterable, NumInput.elems,
      NumInput.isArray, runPairs, hac]
  exact ⟨h, c5_array_type_preservation.2 [1] [1] 0 true [some 1] [some 0] h⟩

/-- Claim C6: for `n > 0`, `z > 0` and `0 <= x <= n` the estimator
returns a center strictly inside `(0, 1)` and a strictly positive
half-width; outside `[0, n]` that guarantee is lost (there are inputs with
`n > 0`, `z > 0` where no value is returned at all). -/
theorem c6_center_open_interval :
    (∀ n x z : ℝ, 0 < n → 0 < z → 0 ≤ x → x ≤ n →
      ∃ p d : ℝ, _ac n x z = Except.ok (some p, some d) ∧ 0 < p ∧ p < 1 ∧ 0 < d) ∧
    (∃ n x z : ℝ, 0 < n ∧ 0 < z ∧ ∀ v, _ac n x z ≠ Except.ok v) := by
  constructor
  · intro n x z hn hz hx0 hxn
    have ha : (0 : ℝ) < n + z * z := nz_pos n z hn
    have hz2 : (0 : ℝ) < z * z := mul_pos hz hz
    have hP0 : 0 < (x + z * z / 2) / (n + z * z) := div_pos (by linarith) ha
    have hP1 : (x + z * z / 2) / (n + z * z) < 1 := by
      rw [div_lt_one ha]
      linarith
    have harg : 0 < (x + z * z / 2) / (n + z * z) *
        (1 - (x + z * z / 2) / (n + z * z)) := mul_pos hP0 (by linarith)
    refine ⟨_, _, ac_pos_ok hn harg.le, hP0, hP1, ?_⟩
    exact mul_pos hz (Real.sqrt_pos.mpr (div_pos harg ha))
  · refine ⟨1, -5, 1, one_pos, one_pos, ?_⟩
    have h : _ac 1 (-5) 1 = Except.error PyErr.valueError := by
      apply ac_pos_err one_pos
      norm_num
    simp [h]

/-- Claim C6 witness: the guarantee applied at `n = 1`, `x = 0`, `z = 1`. -/
theorem c6_witness :
    (0 : ℝ) < 1 ∧ (0 : ℝ) < 1 ∧ (0 : ℝ) ≤ 0 ∧ (0 : ℝ) ≤ 1 ∧
    ∃ p d : ℝ, _ac 1 0 1 = Except.ok (some p, some d) ∧ 0 < p ∧ p < 1 ∧ 0 < d :=
  ⟨one_pos, one_pos, le_refl 0, zero_le_one,
    c6_center_open_interval.1 1 0 1 one_pos one_pos (le_refl 0) zero_le_one⟩

/-- Claim C7: for every `n > 0` and every `z`, the centers at the extreme
success counts `x = 0` and `x = n` are both defined and sum to `1`. -/
theorem c7_extreme_centers_sum_to_one (n z : ℝ) (hn : 0 < n) :
    ∃ p1 d1 p2 d2 : ℝ,
      _ac n 0 z = Except.ok (some p1, some d1) ∧
      _ac n n z = Except.ok (some p2, some d2) ∧
      p1 + p2 = 1 := by
  have ha : (0 : ℝ) < n + z * z := nz_pos n z hn
  have hz2 : (0 : ℝ) ≤ z * z := mul_self_nonneg z
  have h1 : 0 ≤ ((0 : ℝ) + z * z / 2) / (n + z * z) *
      (1 - ((0 : ℝ) + z * z / 2) / (n + z * z)) := by
    have hp : (0 : ℝ) ≤ (0 + z * z / 2) / (n + z * z) := div_nonneg (by linarith) ha.le
    have hp1 : ((0 : ℝ) + z * z / 2) / (n + z * z) ≤ 1 := by
      rw [div_le_one ha]
      linarith
    exact mul_nonneg hp (by linarith)
  have h2 : 0 ≤ (n + z * z / 2) / (n + z * z) * (1 - (n + z * z / 2) / (n + z * z)) := by
    have hp : (0 : ℝ) ≤ (n + z * z / 2) / (n + z * z) := div_nonneg (by linarith) ha.le
    have hp1 : (n + z * z / 2) / (n + z * z) ≤ 1 := by
      rw [div_le_one ha]
      linarith
    exact mul_nonneg hp (by linarith)
  refine ⟨_, _, _, _, ac_pos_ok hn h1, ac_pos_ok hn h2, ?_⟩
  field_simp
  ring

/-- Claim C7 witness: the symmetry applied at `n = 1`, `z = 2`. -/
theorem c7_witness :
    (0 : ℝ) < 1 ∧
    ∃ p1 d1 p2 d2 : ℝ,
      _ac 1 0 2 = Except.ok (some p1, some d1) ∧
      _ac 1 1 2 = Except.ok (some p2, some d2) ∧
      p1 + p2 = 1 :=
  ⟨one_pos, c7_extreme_centers_sum_to_one 1 2 one_pos⟩

/-- Claim C8: for `n > 0` and `x` far enough out of range that
`center * (1 - center)` is negative (`x < -z*z/2` or `x > n + z*z/2`), the
point estimator surfaces the square-root domain error (`ValueError`)
instead of returning a value; no prior range check on `x` intervenes. -/
theorem c8_negative_sqrt_domain_error (n x z : ℝ) (hn : 0 < n)
    (h : x < -(z * z) / 2 ∨ n + z * z / 2 < x) :
    _ac n x z = Except.error PyErr.valueError := by
  have ha : (0 : ℝ) < n + z * z := nz_pos n z hn
  apply ac_pos_err hn
  rcases h with h | h
  · have hP : (x + z * z / 2) / (n + z * z) < 0 :=
      div_neg_of_neg_of_pos (by linarith) ha
    exact mul_neg_of_neg_of_pos hP (by linarith)
  · have hP : 1 < (x + z * z / 2) / (n + z * z) := by
      rw [lt_div_iff₀ ha]
      linarith
    exact mul_neg_of_pos_of_neg (by linarith) (by linarith)

/-- Claim C8 witness: the domain error raised at `n = 1`, `x = -3`,
`z = 0`. -/
theorem c8_witness :
    (0 : ℝ) < 1 ∧ ((-3 : ℝ) < -(0 * 0) / 2 ∨ (1 : ℝ) + 0 * 0 / 2 < -3) ∧
    _ac 1 (-3) 0 = Except.error PyErr.valueError :=
  ⟨one_pos, Or.inl (by norm_num),
    c8_negative_sqrt_domain_error 1 (-3) 0 one_pos (Or.inl (by norm_num))⟩

/-- Claim C9: a call with two scalar arguments is a direct passthrough to
the point estimator: it yields the single pair `_ac` yields (and its
exception when `_ac` raises), never a sequence of length one. -/
theorem c9_scalar_passthrough (a b z : ℝ) :
    agresti_coull (NumInput.scalar a) (NumInput.scalar b) z =
      Except.map (fun v => AcRet.scalarPair v.1 v.2) (_ac a b z) := by
  simp only [agresti_coull, NumInput.isIterable, NumInput.val, Bool.or_self,
    Bool.false_eq_true, if_false]
  rcases h : _ac a b z with e | ⟨p, d⟩ <;> simp [h, Except.map]

/-- Claim C10: pairing a scalar with a length-less iterable (a generator)
fails with `TypeError` for every contents, in either orientation — so
before any estimate is computed — while two length-less iterables paired
together behave exactly like two lists. -/
theorem c10_lengthless_broadcast :
    (∀ (vs : List ℝ) (v z : ℝ),
      agresti_coull (NumInput.gen vs) (NumInput.scalar v) z =
        Except.error PyErr.typeError) ∧
    (∀ (vs : List ℝ) (v z : ℝ),
      agresti_coull (NumInput.scalar v) (NumInput.gen vs) z =
        Except.error PyErr.typeError) ∧
    (∀ (ns xs : List ℝ) (z : ℝ),
      agresti_coull (NumInput.gen ns) (NumInput.gen xs) z =
        agresti_coull (NumInput.pylist ns) (NumInput.pylist xs) z) := by
  refine ⟨?_, ?_, ?_⟩ <;> intro a b z <;>
    simp [agresti_coull, normalizeArgs, NumInput.isIterable, NumInput.len?,
      NumInput.elems, NumInput.isArray]
